import Mathlib

/-!
Shallow embedding of the tokenizer notebooks of this repository.

Python strings are modelled as `List Char`, `bytes` values as `List Nat`, and Python
`Counter`/`dict` objects as insertion-ordered association lists (`List (key × value)`),
which is faithful to CPython's insertion-ordered dictionaries.

Namespaces:
* `BPE`       — notebook 02 (`get_vocab`, `get_stats`, `merge_vocab`, `learn_bpe`); the
                functions `get_stats` and `merge_vocab` are textually identical in
                notebook 03 and are shared.
* `WordPiece` — notebook 03 (`build_initial_vocab`, `train_wordpiece`, `tokenize_wordpiece`).
* `ByteBPE`   — notebook 04 (`build_vocab`, `merge_vocab`, `byte_tokenize`).
* `WordTok`   — notebook 01 (`preprocess`, `vocab`, `encoded`).
-/

/-- Python `Counter`-style increment `ctr[k] += n`: if the key is present its count grows in
place (keeping its position), otherwise the key is appended at the end, matching dict
insertion order. -/
def addCount {α : Type} [DecidableEq α] : List (α × Nat) → α → Nat → List (α × Nat)
  | [], k, n => [(k, n)]
  | (k', m) :: rest, k, n =>
    if k' = k then (k', m + n) :: rest else (k', m) :: addCount rest k n

/-- Python dict assignment `d[k] = v`: overwrite in place when the key is present, append
otherwise. -/
def dictSet {α β : Type} [DecidableEq α] : List (α × β) → α → β → List (α × β)
  | [], k, v => [(k, v)]
  | (k', v') :: rest, k, v =>
    if k' = k then (k, v) :: rest else (k', v') :: dictSet rest k v

/-- Python dict lookup `d[k]`; a missing key raises `KeyError`, modelled as `none`. -/
def lookupKey {α β : Type} [DecidableEq α] : List (α × β) → α → Option β
  | [], _ => none
  | (k', v) :: rest, k => if k' = k then some v else lookupKey rest k

/-- First maximal element, Python `max(..., key=...)` style: a later element replaces the
current best only when its count is strictly larger. -/
def bestFrom {α : Type} : α × Nat → List (α × Nat) → α × Nat
  | x, [] => x
  | x, y :: rest => if x.2 < y.2 then bestFrom y rest else bestFrom x rest

/-- Selection used by the merge loops: `pairs.most_common(1)[0][0]` (notebook 02) and
`max(pairs, key=pairs.get)` (notebooks 03/04) both return the first key of maximal count in
insertion order; `none` models the empty counter, where each loop `break`s. -/
def bestPair {α : Type} : List (α × Nat) → Option (α × Nat)
  | [] => none
  | x :: rest => some (bestFrom x rest)

/-- Worker for `pySplit`; `acc` is the current chunk, reversed. -/
def splitGo : List Char → List Char → List (List Char)
  | acc, [] => if acc = [] then [] else [acc.reverse]
  | acc, c :: rest =>
    if c = ' ' then (if acc = [] then [] else [acc.reverse]) ++ splitGo [] rest
    else splitGo (c :: acc) rest

/-- Python `str.split()` with no argument: maximal runs of non-whitespace characters, empty
chunks discarded. Whitespace is modelled by the space character, the only whitespace the
notebooks' space-joined entries contain. -/
def pySplit (s : List Char) : List (List Char) := splitGo [] s

/-- Python `' '.join(symbols)`. -/
def joinSyms : List (List Char) → List Char
  | [] => []
  | [s] => s
  | s :: t :: rest => s ++ ' ' :: joinSyms (t :: rest)

/-- Python `s.replace(pat, repl)`: leftmost non-overlapping replacement of every occurrence
of `pat`, scanning left to right. (Python's special behaviour on an empty pattern is
irrelevant here: every pattern passed contains a space.) -/
def pyReplace (pat repl : List Char) : List Char → List Char
  | [] => []
  | c :: rest =>
    if h : pat ≠ [] ∧ pat <+: (c :: rest) then
      repl ++ pyReplace pat repl ((c :: rest).drop pat.length)
    else
      c :: pyReplace pat repl rest
termination_by s => s.length
decreasing_by
  · have h1 : 1 ≤ pat.length := by
      cases hp : pat with
      | nil => exact absurd hp h.1
      | cons x xs => simp
    simp only [List.length_drop, List.length_cons]
    omega
  · simp

namespace BPE

/-- The end-of-word marker, the raw Python string `r'<\w>'`. -/
def endOfWord : List Char := ['<', '\\', 'w', '>']

/-- `get_vocab` of notebook 02: each word becomes the entry
`" ".join(list(word)) + r' <\w>'`, counted with multiplicity. -/
def get_vocab (tokens : List (List Char)) : List (List Char × Nat) :=
  tokens.foldl
    (fun acc w => addCount acc (joinSyms (w.map (fun c => [c])) ++ ' ' :: endOfWord) 1) []

/-- Inner loop of `get_stats`: adds `freq` for every adjacent symbol pair of one entry,
left to right. -/
def addPairs (freq : Nat) :
    List (List Char) → List ((List Char × List Char) × Nat) → List ((List Char × List Char) × Nat)
  | s1 :: s2 :: rest, acc => addPairs freq (s2 :: rest) (addCount acc (s1, s2) freq)
  | _, acc => acc

/-- `get_stats` (textually identical in notebooks 02 and 03): counts adjacent symbol pairs
over all entries, each occurrence weighted by the entry's count. -/
def get_stats (vocab : List (List Char × Nat)) : List ((List Char × List Char) × Nat) :=
  vocab.foldl (fun acc wf => addPairs wf.2 (pySplit wf.1) acc) []

/-- The entry transformation inside `merge_vocab`:
`word.replace(' '.join(pair), ''.join(pair))`. -/
def replaceEntry (pair : List Char × List Char) (w : List Char) : List Char :=
  pyReplace (pair.1 ++ ' ' :: pair.2) (pair.1 ++ pair.2) w

/-- `merge_vocab` (textually identical in notebooks 02 and 03): rebuild the vocabulary dict,
sending each entry through `replaceEntry`. `new_vocab[new_word] = vocab[word]` is dict
assignment, so a later entry mapping to an already-present key overwrites it; `vocab[word]`
reads this entry's own count, dict keys being unique during the iteration. -/
def merge_vocab (pair : List Char × List Char) (vocab : List (List Char × Nat)) :
    List (List Char × Nat) :=
  vocab.foldl (fun acc wf => dictSet acc (replaceEntry pair wf.1) wf.2) []

/-- The merge-learning loop shared by `learn_bpe` (notebook 02) and `train_wordpiece`
(notebook 03): stop when `get_stats` is empty, otherwise merge the first pair of maximal
frequency — `pairs.most_common(1)[0][0]` and `max(pairs, key=pairs.get)` agree on it. -/
def mergeLoop : Nat → List (List Char × Nat) → List (List Char × Nat)
  | 0, v => v
  | n + 1, v =>
    match bestPair (get_stats v) with
    | none => v
    | some q => mergeLoop n (merge_vocab q.1 v)

/-- Number of merge iterations `mergeLoop` actually performs before returning. -/
def mergeCount : Nat → List (List Char × Nat) → Nat
  | 0, _ => 0
  | n + 1, v =>
    match bestPair (get_stats v) with
    | none => 0
    | some q => mergeCount n (merge_vocab q.1 v) + 1

/-- `learn_bpe` of notebook 02 (the returned vocabulary; the printing is omitted). -/
def learn_bpe (tokens : List (List Char)) (num_merges : Nat) : List (List Char × Nat) :=
  mergeLoop num_merges (get_vocab tokens)

end BPE

namespace WordPiece

/-- `build_initial_vocab` of notebook 03: `' '.join(list(word) + ['<\w>'])`, counted. -/
def build_initial_vocab (corpus : List (List Char)) : List (List Char × Nat) :=
  corpus.foldl
    (fun acc w => addCount acc (joinSyms (w.map (fun c => [c]) ++ [BPE.endOfWord])) 1) []

/-- `train_wordpiece` of notebook 03: the same loop as `learn_bpe` (see `BPE.mergeLoop`),
started from `build_initial_vocab`. -/
def train_wordpiece (corpus : List (List Char)) (num_merges : Nat) : List (List Char × Nat) :=
  BPE.mergeLoop num_merges (build_initial_vocab corpus)

/-- The unknown-token marker `'[UNK]'`. -/
def unkTok : List Char := ['[', 'U', 'N', 'K', ']']

/-- Candidate subword at a position of `tokenize_wordpiece`: non-initial positions are
prefixed with `'##'`. -/
def wpCandidate (atStart : Bool) (sub : List Char) : List Char :=
  if atStart then sub else '#' :: '#' :: sub

/-- The inner `for j in range(len(word), i, -1)` search of `tokenize_wordpiece`, expressed on
the remaining suffix of the word: try candidate lengths `n, n-1, ..., 1` and return the first
(i.e. longest) candidate found in the vocabulary, together with the length consumed. -/
def findFrom (vocab : List (List Char)) (rem : List Char) (atStart : Bool) :
    Nat → Option (List Char × Nat)
  | 0 => none
  | j + 1 =>
    if wpCandidate atStart (rem.take (j + 1)) ∈ vocab then
      some (wpCandidate atStart (rem.take (j + 1)), j + 1)
    else findFrom vocab rem atStart j

/-- The full longest-match search at one position. -/
def findLongest (vocab : List (List Char)) (rem : List Char) (atStart : Bool) :
    Option (List Char × Nat) :=
  findFrom vocab rem atStart rem.length

/-- Fuel-indexed worker for the `while i < len(word)` loop of `tokenize_wordpiece`. Each
successful search consumes at least one character, so the remaining length is a valid fuel;
the fuel-exhausted branch is unreachable whenever `rem.length ≤ fuel` (see the congruence
lemma below). -/
def wpGo (vocab : List (List Char)) : Nat → List Char → Bool → List (List Char)
  | _, [], _ => []
  | 0, _ :: _, _ => []
  | fuel + 1, c :: rest, atStart =>
    match findLongest vocab (c :: rest) atStart with
    | none => [unkTok]
    | some tj => tj.1 :: wpGo vocab fuel ((c :: rest).drop tj.2) false

/-- The `while i < len(word)` loop of `tokenize_wordpiece`, the position `i` represented by
the remaining suffix `rem = word[i:]` and `atStart = (i == 0)`. When the search fails the
marker `'[UNK]'` is appended and the loop breaks, discarding the rest of the word. -/
def wpLoop (vocab : List (List Char)) (rem : List Char) (atStart : Bool) : List (List Char) :=
  wpGo vocab rem.length rem atStart

/-- `tokenize_wordpiece` of notebook 03. -/
def tokenize_wordpiece (word : List Char) (vocab : List (List Char)) : List (List Char) :=
  wpLoop vocab word true

end WordPiece

namespace ByteBPE

/-- Inner loop of `build_vocab`: counts `tokens[i] + tokens[i+1]` for one line. A token is a
`bytes` value, modelled as `List Nat`; the notebook's conversion of leftover `int` items to
`bytes([b])` is modelled by lines holding tokens throughout, an `int` `b` standing for the
singleton token `[b]`. -/
def lineAdd : List (List Nat) → List (List Nat × Nat) → List (List Nat × Nat)
  | t1 :: t2 :: rest, acc => lineAdd (t2 :: rest) (addCount acc (t1 ++ t2) 1)
  | _, acc => acc

/-- `build_vocab` of notebook 04: counts the concatenations of adjacent tokens over all
lines of the corpus. -/
def build_vocab (corpus : List (List (List Nat))) : List (List Nat × Nat) :=
  corpus.foldl (fun acc line => lineAdd line acc) []

/-- One line of the merge pass inside the byte-level `merge_vocab`: the `while i < len(line)`
loop. After a join the scan continues two positions further (`i += 2`). The Python test
`if b and a + b == best_pair` skips both a `None` (`a` is the last token) and an empty `b`. -/
def mergeLine (bp : List Nat) : List (List Nat) → List (List Nat)
  | a :: b :: rest =>
    if b ≠ [] ∧ a ++ b = bp then (a ++ b) :: mergeLine bp rest
    else a :: mergeLine bp (b :: rest)
  | l => l

/-- One merge iteration applied to the whole corpus; the notebook's `flatten` is the
identity on lines whose items are all `bytes`. -/
def mergeStep (bp : List Nat) (corpus : List (List (List Nat))) : List (List (List Nat)) :=
  corpus.map (mergeLine bp)

/-- Byte-level `merge_vocab` of notebook 04: learn and return up to `num_merges` merges,
stopping early when the corpus has no adjacent pair left. -/
def merge_vocab : List (List (List Nat)) → Nat → List (List Nat)
  | _, 0 => []
  | corpus, n + 1 =>
    match bestPair (build_vocab corpus) with
    | none => []
    | some q => q.1 :: merge_vocab (mergeStep q.1 corpus) n

/-- The corpus state after the byte-level training loop; the notebook keeps it in the local
variable `byte_corpus` and does not return it. Used to state the early-stop property. -/
def corpusAfter : List (List (List Nat)) → Nat → List (List (List Nat))
  | corpus, 0 => corpus
  | corpus, n + 1 =>
    match bestPair (build_vocab corpus) with
    | none => corpus
    | some q => corpusAfter (mergeStep q.1 corpus) n

/-- One full pass of `byte_tokenize`'s inner `while` loop for a single merge, mutating the
token list in place: after a join the index stays put, so the freshly joined token is
immediately compared with its new right neighbour. -/
def mergePassCode (m : List Nat) : List (List Nat) → List (List Nat)
  | t1 :: t2 :: rest =>
    if t1 ++ t2 = m then mergePassCode m ((t1 ++ t2) :: rest)
    else t1 :: mergePassCode m (t2 :: rest)
  | l => l
termination_by l => l.length
decreasing_by
  · simp
  · simp

/-- `byte_tokenize` of notebook 04. `text.encode("utf-8")` is modelled by taking the byte
list itself as the input; each byte becomes a singleton token and the learned merges are
applied one full pass each, in the order of the list. -/
def byte_tokenize (bytes : List Nat) (merges : List (List Nat)) : List (List Nat) :=
  merges.foldl (fun ts m => mergePassCode m ts) (bytes.map (fun b => [b]))

/-- Follows the words of the specification for a single merge pass: scan the token sequence
left to right and join every adjacent pair whose concatenation equals the merge, continuing
after the joined token. -/
def mergePassSpec (m : List Nat) : List (List Nat) → List (List Nat)
  | t1 :: t2 :: rest =>
    if t1 ++ t2 = m then (t1 ++ t2) :: mergePassSpec m rest
    else t1 :: mergePassSpec m (t2 :: rest)
  | l => l

end ByteBPE

namespace WordTok

/-- ASCII case of Python `str.lower`; the notebook's text and the regex are ASCII-only. -/
def asciiLower (c : Char) : Char :=
  if 'A' ≤ c ∧ c ≤ 'Z' then Char.ofNat (c.toNat + 32) else c

/-- The character class kept by `re.sub(r'[^a-zA-Z0-9\s]', '', text)`; whitespace `\s` is
modelled by the space character, the only whitespace in the notebook's input. -/
def keepChar (c : Char) : Bool :=
  decide (('a' ≤ c ∧ c ≤ 'z') ∨ ('A' ≤ c ∧ c ≤ 'Z') ∨ ('0' ≤ c ∧ c ≤ '9') ∨ c = ' ')

/-- `preprocess` of notebook 01: lowercase, strip characters outside `[a-zA-Z0-9\s]`,
split on whitespace. -/
def preprocess (text : List Char) : List (List Char) :=
  pySplit ((text.map asciiLower).filter keepChar)

/-- Python string comparison `<`: lexicographic by code point. -/
def ltStr : List Char → List Char → Bool
  | [], [] => false
  | [], _ :: _ => true
  | _ :: _, [] => false
  | a :: as, b :: bs => if a < b then true else if b < a then false else ltStr as bs

/-- The non-strict order `sorted` sorts by, as a proposition. -/
def leStr (a b : List Char) : Prop := ltStr b a = false

instance : DecidableRel leStr := fun a b => inferInstanceAs (Decidable (_ = false))

/-- `sorted(set(tokens))`: the distinct tokens in ascending lexicographic order; `set`
forgets duplicates, modelled by `List.dedup`. -/
def sortedDistinct (tokens : List (List Char)) : List (List Char) :=
  List.insertionSort leStr tokens.dedup

/-- `vocab = {word : idx for idx, word in enumerate(sorted(set(tokens)))}` of notebook 01. -/
def vocab (tokens : List (List Char)) : List (List Char × Nat) :=
  (sortedDistinct tokens).enum.map (fun p => (p.2, p.1))

/-- `encoded = [vocab[word] for word in tokens]` of notebook 01: the comprehension is
evaluated left to right, and a missing key raises `KeyError`, modelled as `none`; no handler
exists in the script, so `none` propagates to the top. -/
def encoded : List (List Char) → List (List Char × Nat) → Option (List Nat)
  | [], _ => some []
  | t :: rest, v =>
    match lookupKey v t with
    | none => none
    | some i =>
      match encoded rest v with
      | none => none
      | some ids => some (i :: ids)

end WordTok

/-- Follows the words of claim C2 for the entry transformation of `merge_vocab`: replace
exactly the adjacent whole-symbol occurrences of `a` followed by `b` with the single symbol
`a ++ b`, scanning left to right, leaving every other symbol unchanged. -/
def mergeSymbols (a b : List Char) : List (List Char) → List (List Char)
  | [] => []
  | [s] => [s]
  | s :: t :: rest =>
    if s = a ∧ t = b then (a ++ b) :: mergeSymbols a b rest
    else s :: mergeSymbols a b (t :: rest)

/-! ### Helper lemmas: first-maximum selection -/

theorem bestFrom_le_self {α : Type} (x : α × Nat) (l : List (α × Nat)) :
    x.2 ≤ (bestFrom x l).2 := by
  induction l generalizing x with
  | nil => simp [bestFrom]
  | cons y rest ih =>
    simp only [bestFrom]
    split
    · exact le_trans (le_of_lt (by assumption)) (ih y)
    · exact ih x

theorem bestFrom_le {α : Type} (l : List (α × Nat)) (x : α × Nat) (p : α) (c : Nat)
    (hm : (p, c) ∈ l) : c ≤ (bestFrom x l).2 := by
  induction l generalizing x with
  | nil => cases hm
  | cons y rest ih =>
    rcases List.mem_cons.mp hm with h | h
    · have hc : c = y.2 := by rw [← h]
      subst hc
      simp only [bestFrom]
      split
      · exact bestFrom_le_self _ _
      · exact le_trans (not_lt.mp (by assumption)) (bestFrom_le_self x rest)
    · simp only [bestFrom]
      split
      · exact ih _ h
      · exact ih _ h

theorem bestPair_none_iff {α : Type} (l : List (α × Nat)) : bestPair l = none ↔ l = [] := by
  cases l <;> simp [bestPair]

theorem bestPair_le {α : Type} {l : List (α × Nat)} {q : α × Nat} {p : α} {c : Nat}
    (hq : bestPair l = some q) (hm : (p, c) ∈ l) : c ≤ q.2 := by
  cases l with
  | nil => cases hm
  | cons x rest =>
    simp only [bestPair, Option.some.injEq] at hq
    subst hq
    rcases List.mem_cons.mp hm with h | h
    · subst h
      simpa using bestFrom_le_self (p, c) rest
    · exact bestFrom_le rest x p c h

/-! ### Helper lemmas: the merge-learning loops -/

theorem mergeCount_le : ∀ (n : Nat) (v : List (List Char × Nat)), BPE.mergeCount n v ≤ n := by
  intro n
  induction n with
  | zero => intro v; simp [BPE.mergeCount]
  | succ k ih =>
    intro v
    simp only [BPE.mergeCount]
    cases hb : bestPair (BPE.get_stats v) with
    | none => simp
    | some q => simpa using ih (BPE.merge_vocab q.1 v)

theorem mergeCount_lt_stats :
    ∀ (n : Nat) (v : List (List Char × Nat)), BPE.mergeCount n v < n →
      BPE.get_stats (BPE.mergeLoop n v) = [] := by
  intro n
  induction n with
  | zero => intro v h; omega
  | succ k ih =>
    intro v h
    simp only [BPE.mergeLoop]
    cases hb : bestPair (BPE.get_stats v) with
    | none => exact (bestPair_none_iff _).mp hb
    | some q =>
      simp only [BPE.mergeCount, hb] at h
      exact ih (BPE.merge_vocab q.1 v) (by omega)

theorem byteMerge_length_le :
    ∀ (n : Nat) (c : List (List (List Nat))), (ByteBPE.merge_vocab c n).length ≤ n := by
  intro n
  induction n with
  | zero => intro c; simp [ByteBPE.merge_vocab]
  | succ k ih =>
    intro c
    simp only [ByteBPE.merge_vocab]
    cases hb : bestPair (ByteBPE.build_vocab c) with
    | none => simp
    | some q => simpa using ih (ByteBPE.mergeStep q.1 c)

theorem byteMerge_lt_stats :
    ∀ (n : Nat) (c : List (List (List Nat))), (ByteBPE.merge_vocab c n).length < n →
      ByteBPE.build_vocab (ByteBPE.corpusAfter c n) = [] := by
  intro n
  induction n with
  | zero => intro c h; omega
  | succ k ih =>
    intro c h
    simp only [ByteBPE.merge_vocab] at h
    simp only [ByteBPE.corpusAfter]
    cases hb : bestPair (ByteBPE.build_vocab c) with
    | none => exact (bestPair_none_iff _).mp hb
    | some q =>
      rw [hb] at h
      simp only [List.length_cons] at h
      exact ih (ByteBPE.mergeStep q.1 c) (by omega)

/-- Claim C1: at every iteration of the merge-learning loop of `learn_bpe` and
`train_wordpiece` (the shared `BPE.mergeLoop`), the pair selected for merging — the first
key of maximal count of `get_stats`, i.e. `bestPair (get_stats v)` — has a frequency at
least as large as the frequency `get_stats` computes for every other adjacent symbol pair
at that iteration. -/
theorem claim_C1_selected_pair_max (v : List (List Char × Nat))
    (q : (List Char × List Char) × Nat) (p : List Char × List Char) (c n : Nat)
    (hq : bestPair (BPE.get_stats v) = some q) :
    BPE.mergeLoop (n + 1) v = BPE.mergeLoop n (BPE.merge_vocab q.1 v) ∧
      ((p, c) ∈ BPE.get_stats v → c ≤ q.2) := by
  constructor
  · simp only [BPE.mergeLoop, hq]
  · intro hm
    exact bestPair_le hq hm

/-- Witness for claim C1 at the vocabulary `{"l o": 1}`: the stats are `[(("l","o"), 1)]`,
the selected pair is `("l","o")` with count 1, and the membership hypothesis is discharged
for the pair `("l","o")` itself. -/
theorem claim_C1_witness :
    BPE.mergeLoop 1 [(['l', ' ', 'o'], 1)]
        = BPE.mergeLoop 0 (BPE.merge_vocab (['l'], ['o']) [(['l', ' ', 'o'], 1)]) ∧
      (((['l'], ['o']), 1) ∈ BPE.get_stats [(['l', ' ', 'o'], 1)] → 1 ≤ 1) := by
  have h := claim_C1_selected_pair_max [(['l', ' ', 'o'], 1)] ((['l'], ['o']), 1)
    (['l'], ['o']) 1 0 (by decide)
  constructor
  · exact h.1
  · intro hm
    exact h.2 hm

/-- Claim C5: for every token list and merge budget, the training loops — `learn_bpe`,
`train_wordpiece` (both running `BPE.mergeLoop`) and the byte-level `ByteBPE.merge_vocab` —
perform at most `num_merges` merge iterations, and when they stop short of the budget the
final state has no adjacent pair left to merge (`get_stats`, resp. `build_vocab`, is
empty). -/
theorem claim_C5_termination (n : Nat) (tokens corpus : List (List Char))
    (bc : List (List (List Nat))) :
    (BPE.mergeCount n (BPE.get_vocab tokens) ≤ n ∧
      (BPE.mergeCount n (BPE.get_vocab tokens) < n →
        BPE.get_stats (BPE.learn_bpe tokens n) = [])) ∧
    (BPE.mergeCount n (WordPiece.build_initial_vocab corpus) ≤ n ∧
      (BPE.mergeCount n (WordPiece.build_initial_vocab corpus) < n →
        BPE.get_stats (WordPiece.train_wordpiece corpus n) = [])) ∧
    ((ByteBPE.merge_vocab bc n).length ≤ n ∧
      ((ByteBPE.merge_vocab bc n).length < n →
        ByteBPE.build_vocab (ByteBPE.corpusAfter bc n) = [])) := by
  refine ⟨⟨mergeCount_le n _, fun h => ?_⟩, ⟨mergeCount_le n _, fun h => ?_⟩,
    ⟨byteMerge_length_le n bc, fun h => byteMerge_lt_stats n bc h⟩⟩
  · exact mergeCount_lt_stats n _ h
  · exact mergeCount_lt_stats n _ h

/-- Witness for claim C5 on empty corpora with budget 1: every loop stops after 0 merges,
strictly below the budget, and the final states indeed have no pair left. -/
theorem claim_C5_witness :
    BPE.get_stats (BPE.learn_bpe [] 1) = [] ∧
      BPE.get_stats (WordPiece.train_wordpiece [] 1) = [] ∧
      ByteBPE.build_vocab (ByteBPE.corpusAfter [] 1) = [] := by
  have h := claim_C5_termination 1 [] [] []
  exact ⟨h.1.2 (by decide), h.2.1.2 (by decide), h.2.2.2 (by decide)⟩

/-! ### Helper lemmas: the byte-level merge passes -/

theorem mergePassSpec_cons (m x : List Nat) (rest : List (List Nat))
    (h : ∀ r rest', rest = r :: rest' → x ++ r ≠ m) :
    ByteBPE.mergePassSpec m (x :: rest) = x :: ByteBPE.mergePassSpec m rest := by
  cases rest with
  | nil => rfl
  | cons r rest' =>
    simp only [ByteBPE.mergePassSpec, if_neg (h r rest' rfl)]

theorem mergePassCode_eq_spec (m : List Nat) (ts : List (List Nat)) :
    (∀ t ∈ ts, t ≠ []) → ByteBPE.mergePassCode m ts = ByteBPE.mergePassSpec m ts := by
  induction ts using ByteBPE.mergePassCode.induct m with
  | case1 t1 t2 rest heq ih =>
    intro hne
    have h1 : t1 ≠ [] := hne t1 (by simp)
    have hr : ∀ t ∈ rest, t ≠ [] := fun t ht => hne t (by simp [ht])
    have hcons : ∀ t ∈ (t1 ++ t2) :: rest, t ≠ [] := by
      intro t ht
      rcases List.mem_cons.mp ht with h | h
      · subst h; simp [h1]
      · exact hr t h
    have hspec : ByteBPE.mergePassSpec m ((t1 ++ t2) :: rest)
        = (t1 ++ t2) :: ByteBPE.mergePassSpec m rest := by
      apply mergePassSpec_cons
      intro r rest' hrr habs
      have hrne : r ≠ [] := hr r (by simp [hrr])
      have hlen : (t1 ++ t2 ++ r).length = m.length := by rw [habs]
      rw [← heq] at hlen
      simp only [List.length_append] at hlen
      exact hrne (List.eq_nil_of_length_eq_zero (by omega))
    calc ByteBPE.mergePassCode m (t1 :: t2 :: rest)
        = ByteBPE.mergePassCode m ((t1 ++ t2) :: rest) := by
          simp only [ByteBPE.mergePassCode, if_pos heq]
      _ = ByteBPE.mergePassSpec m ((t1 ++ t2) :: rest) := ih hcons
      _ = (t1 ++ t2) :: ByteBPE.mergePassSpec m rest := hspec
      _ = ByteBPE.mergePassSpec m (t1 :: t2 :: rest) := by
          simp only [ByteBPE.mergePassSpec, if_pos heq]
  | case2 t1 t2 rest hne2 ih =>
    intro hne
    have : ∀ t ∈ t2 :: rest, t ≠ [] := fun t ht => hne t (by simp [List.mem_cons.mp ht])
    simp only [ByteBPE.mergePassCode, ByteBPE.mergePassSpec, if_neg hne2]
    rw [ih this]
  | case3 l h =>
    intro _
    cases l with
    | nil => simp [ByteBPE.mergePassCode, ByteBPE.mergePassSpec]
    | cons a l' =>
      cases l' with
      | nil => simp [ByteBPE.mergePassCode, ByteBPE.mergePassSpec]
      | cons b l'' => exact absurd rfl (by exact fun hh => h a b l'' hh)

theorem mergePassSpec_mem_ne_nil (m : List Nat) (ts : List (List Nat))
    (h : ∀ t ∈ ts, t ≠ []) : ∀ t ∈ ByteBPE.mergePassSpec m ts, t ≠ [] := by
  induction ts using ByteBPE.mergePassSpec.induct m with
  | case1 t1 t2 rest heq ih =>
    simp only [ByteBPE.mergePassSpec, if_pos heq]
    intro t ht
    rcases List.mem_cons.mp ht with h' | h'
    · subst h'
      simp [h t1 (by simp)]
    · exact ih (fun u hu => h u (by simp [hu])) t h'
  | case2 t1 t2 rest hne ih =>
    simp only [ByteBPE.mergePassSpec, if_neg hne]
    intro t ht
    rcases List.mem_cons.mp ht with h' | h'
    · subst h'; exact h t (by simp)
    · exact ih (fun u hu => h u (by simp [List.mem_cons.mp hu])) t h'
  | case3 l hl =>
    cases l with
    | nil => intro t ht; cases ht
    | cons a l' =>
      cases l' with
      | nil =>
        intro t ht
        simp only [ByteBPE.mergePassSpec] at ht
        exact h t ht
      | cons b l'' => exact absurd rfl (by exact fun hh => hl a b l'' hh)

/-- Claim C3: `byte_tokenize` applies the recorded merges one at a time, in exactly the
order they were recorded (a left fold over the merge list), each pass scanning the current
token sequence left to right and joining every adjacent token pair whose concatenation
equals that merge (`mergePassSpec`, which follows the words of the specification). -/
theorem claim_C3_merge_order (bytes : List Nat) (merges : List (List Nat)) :
    ByteBPE.byte_tokenize bytes merges
      = merges.foldl (fun ts m => ByteBPE.mergePassSpec m ts) (bytes.map (fun b => [b])) := by
  unfold ByteBPE.byte_tokenize
  have hinv : ∀ t ∈ bytes.map (fun b => [b]), t ≠ [] := by
    intro t ht
    rcases List.mem_map.mp ht with ⟨b, _, hb⟩
    rw [← hb]
    simp
  revert hinv
  generalize bytes.map (fun b => [b]) = init
  induction merges generalizing init with
  | nil => intro _; rfl
  | cons m ms ih =>
    intro hinv
    simp only [List.foldl_cons]
    rw [mergePassCode_eq_spec m init hinv]
    exact ih _ (mergePassSpec_mem_ne_nil m init hinv)

theorem mergePassCode_join (m : List Nat) (ts : List (List Nat)) :
    (ByteBPE.mergePassCode m ts).join = ts.join := by
  induction ts using ByteBPE.mergePassCode.induct m with
  | case1 t1 t2 rest heq ih =>
    simp only [ByteBPE.mergePassCode, if_pos heq]
    rw [ih]
    simp [List.join]
  | case2 t1 t2 rest hne ih =>
    simp only [ByteBPE.mergePassCode, if_neg hne]
    simp [List.join, ih]
  | case3 l h =>
    cases l with
    | nil => simp [ByteBPE.mergePassCode]
    | cons a l' =>
      cases l' with
      | nil => simp [ByteBPE.mergePassCode]
      | cons b l'' => exact absurd rfl (by exact fun hh => h a b l'' hh)

theorem join_map_singleton (l : List Nat) : (l.map (fun b => [b])).join = l := by
  induction l with
  | nil => rfl
  | cons b rest ih => simp [List.join, ih]

/-- Claim C8: concatenating the byte tokens returned by `byte_tokenize` yields exactly the
input byte sequence (the UTF-8 encoding of the input string, which is the function's
input in this model): tokenization never drops, duplicates, or reorders bytes. -/
theorem claim_C8_concat_bytes (bytes : List Nat) (merges : List (List Nat)) :
    (ByteBPE.byte_tokenize bytes merges).join = bytes := by
  unfold ByteBPE.byte_tokenize
  have h : ∀ (init : List (List Nat)),
      (merges.foldl (fun ts m => ByteBPE.mergePassCode m ts) init).join = init.join := by
    induction merges with
    | nil => intro init; rfl
    | cons m ms ih =>
      intro init
      simp only [List.foldl_cons]
      rw [ih, mergePassCode_join]
  rw [h, join_map_singleton]

/-! ### Word-level tokenizer: encoding -/

/-- Claim C7: in the word-level tokenizer, `encoded = [vocab[word] for word in tokens]`
raises an uncaught `KeyError` (modelled as `none`: no handler exists in the script, so the
exception propagates to the top and aborts it) whenever some token is absent from the
vocabulary, and when every token is present it returns `some` of the list of their
vocabulary IDs in order (`List.Forall₂` ties each token to its ID positionally). -/
theorem claim_C7_encode (tokens : List (List Char)) (v : List (List Char × Nat)) :
    ((∃ t ∈ tokens, lookupKey v t = none) → WordTok.encoded tokens v = none) ∧
      ((∀ t ∈ tokens, ∃ i, lookupKey v t = some i) →
        ∃ ids, WordTok.encoded tokens v = some ids ∧
          List.Forall₂ (fun t i => lookupKey v t = some i) tokens ids) := by
  induction tokens with
  | nil =>
    refine ⟨fun ⟨t, ht, _⟩ => absurd ht (by simp), fun _ => ⟨[], rfl, List.Forall₂.nil⟩⟩
  | cons t rest ih =>
    constructor
    · rintro ⟨u, hu, hnone⟩
      rcases List.mem_cons.mp hu with h | h
      · subst h
        simp only [WordTok.encoded, hnone]
      · simp only [WordTok.encoded]
        cases hl : lookupKey v t with
        | none => rfl
        | some i =>
          rw [ih.1 ⟨u, h, hnone⟩]
    · intro hall
      rcases hall t (by simp) with ⟨i, hi⟩
      rcases ih.2 (fun u hu => hall u (by simp [hu])) with ⟨ids, hids, hforall⟩
      refine ⟨i :: ids, ?_, List.Forall₂.cons hi hforall⟩
      simp only [WordTok.encoded, hi, hids]

/-- Witness for claim C7 on the tokens `["hi", "yo"]`: with the vocabulary `{"hi": 0}` the
token `"yo"` is missing and encoding yields `none`; with `{"hi": 0, "yo": 1}` every token is
present and encoding yields the IDs in order. -/
theorem claim_C7_witness :
    WordTok.encoded [['h', 'i'], ['y', 'o']] [(['h', 'i'], 0)] = none ∧
      ∃ ids, WordTok.encoded [['h', 'i'], ['y', 'o']] [(['h', 'i'], 0), (['y', 'o'], 1)]
          = some ids ∧
        List.Forall₂ (fun t i => lookupKey [(['h', 'i'], 0), (['y', 'o'], 1)] t = some i)
          [['h', 'i'], ['y', 'o']] ids := by
  constructor
  · exact (claim_C7_encode [['h', 'i'], ['y', 'o']] [(['h', 'i'], 0)]).1
      ⟨['y', 'o'], by decide, by decide⟩
  · refine (claim_C7_encode [['h', 'i'], ['y', 'o']] [(['h', 'i'], 0), (['y', 'o'], 1)]).2 ?_
    intro t ht
    rcases List.mem_cons.mp ht with h | h
    · exact ⟨0, by rw [h]; decide⟩
    · rcases List.mem_cons.mp h with h2 | h2
      · exact ⟨1, by rw [h2]; decide⟩
      · cases h2

/-! ### Helper lemmas: the WordPiece tokenizer loop -/

theorem findFrom_pos (v : List (List Char)) (rem : List Char) (s : Bool) :
    ∀ (n : Nat) (tj : List Char × Nat), WordPiece.findFrom v rem s n = some tj → 1 ≤ tj.2 := by
  intro n
  induction n with
  | zero => intro tj h; simp [WordPiece.findFrom] at h
  | succ k ih =>
    intro tj h
    simp only [WordPiece.findFrom] at h
    split at h
    · cases h; simp
    · exact ih tj h

theorem findFrom_mem (v : List (List Char)) (rem : List Char) (s : Bool) :
    ∀ (n : Nat) (tj : List Char × Nat), WordPiece.findFrom v rem s n = some tj → tj.1 ∈ v := by
  intro n
  induction n with
  | zero => intro tj h; simp [WordPiece.findFrom] at h
  | succ k ih =>
    intro tj h
    simp only [WordPiece.findFrom] at h
    split at h
    · cases h; assumption
    · exact ih tj h

theorem findFrom_none (v : List (List Char)) (rem : List Char) (s : Bool) :
    ∀ (n : Nat), (∀ j, 1 ≤ j → j ≤ n → WordPiece.wpCandidate s (rem.take j) ∉ v) →
      WordPiece.findFrom v rem s n = none := by
  intro n
  induction n with
  | zero => intro _; rfl
  | succ k ih =>
    intro h
    simp only [WordPiece.findFrom]
    rw [if_neg (h (k + 1) (by omega) (by omega))]
    exact ih (fun j hj1 hj2 => h j hj1 (by omega))

theorem wpGo_congr (v : List (List Char)) :
    ∀ (fuel fuel' : Nat) (rem : List Char) (s : Bool), rem.length ≤ fuel →
      rem.length ≤ fuel' → WordPiece.wpGo v fuel rem s = WordPiece.wpGo v fuel' rem s := by
  intro fuel
  induction fuel with
  | zero =>
    intro fuel' rem s h1 _
    have : rem = [] := List.eq_nil_of_length_eq_zero (by omega)
    subst this
    cases fuel' <;> rfl
  | succ k ih =>
    intro fuel' rem s h1 h2
    cases rem with
    | nil => cases fuel' <;> rfl
    | cons c rest =>
      cases fuel' with
      | zero => simp at h2
      | succ k' =>
        cases hf : WordPiece.findLongest v (c :: rest) s with
        | none => simp only [WordPiece.wpGo, hf]
        | some tj =>
          have hpos : 1 ≤ tj.2 := findFrom_pos v (c :: rest) s _ tj hf
          have hlen : ((c :: rest).drop tj.2).length ≤ k := by
            simp only [List.length_drop, List.length_cons]
            simp only [List.length_cons] at h1
            omega
          have hlen' : ((c :: rest).drop tj.2).length ≤ k' := by
            simp only [List.length_drop, List.length_cons]
            simp only [List.length_cons] at h2
            omega
          simp only [WordPiece.wpGo, hf]
          rw [ih k' _ false hlen hlen']

theorem wpLoop_nil (v : List (List Char)) (s : Bool) : WordPiece.wpLoop v [] s = [] := rfl

theorem wpLoop_cons (v : List (List Char)) (c : Char) (rest : List Char) (s : Bool) :
    WordPiece.wpLoop v (c :: rest) s =
      match WordPiece.findLongest v (c :: rest) s with
      | none => [WordPiece.unkTok]
      | some tj => tj.1 :: WordPiece.wpLoop v ((c :: rest).drop tj.2) false := by
  show WordPiece.wpGo v (rest.length + 1) (c :: rest) s = _
  cases hf : WordPiece.findLongest v (c :: rest) s with
  | none => simp only [WordPiece.wpGo, hf]
  | some tj =>
    have hpos : 1 ≤ tj.2 := findFrom_pos v (c :: rest) s _ tj hf
    have h1 : ((c :: rest).drop tj.2).length ≤ rest.length := by
      simp only [List.length_drop, List.length_cons]
      omega
    simp only [WordPiece.wpGo, hf, WordPiece.wpLoop]
    rw [wpGo_congr v rest.length ((c :: rest).drop tj.2).length _ false h1 (le_refl _)]

theorem wpLoop_cons_none (v : List (List Char)) (c : Char) (rest : List Char) (s : Bool)
    (hf : WordPiece.findLongest v (c :: rest) s = none) :
    WordPiece.wpLoop v (c :: rest) s = [WordPiece.unkTok] := by
  rw [wpLoop_cons, hf]

theorem wpLoop_cons_some (v : List (List Char)) (c : Char) (rest : List Char) (s : Bool)
    (tj : List Char × Nat) (hf : WordPiece.findLongest v (c :: rest) s = some tj) :
    WordPiece.wpLoop v (c :: rest) s = tj.1 :: WordPiece.wpLoop v ((c :: rest).drop tj.2) false := by
  rw [wpLoop_cons, hf]

/-- Claim C4: at any position of `tokenize_wordpiece` (the loop state `wpLoop`, the position
given by the remaining suffix `rem` and the `atStart` flag), if no candidate substring
starting there — prefixed with `'##'` when the position is non-initial — belongs to the
vocabulary, the tokenizer appends the marker `'[UNK]'` (and stops). The second conjunct
records that `tokenize_wordpiece` is exactly the loop started at the initial position. -/
theorem claim_C4_unk_fallback (v : List (List Char)) (rem : List Char) (atStart : Bool)
    (hne : rem ≠ [])
    (hmiss : ∀ j, 1 ≤ j → j ≤ rem.length → WordPiece.wpCandidate atStart (rem.take j) ∉ v) :
    WordPiece.wpLoop v rem atStart = [WordPiece.unkTok] ∧
      WordPiece.tokenize_wordpiece rem v = WordPiece.wpLoop v rem true := by
  constructor
  · cases rem with
    | nil => exact absurd rfl hne
    | cons c rest =>
      exact wpLoop_cons_none v c rest atStart
        (findFrom_none v (c :: rest) atStart (c :: rest).length hmiss)
  · rfl

/-- Witness for claim C4: with the empty vocabulary and the one-letter word `"q"`, no
candidate matches and the output is exactly `['[UNK]']`. -/
theorem claim_C4_witness :
    WordPiece.wpLoop [] ['q'] true = [WordPiece.unkTok] ∧
      WordPiece.tokenize_wordpiece ['q'] [] = WordPiece.wpLoop [] ['q'] true :=
  claim_C4_unk_fallback [] ['q'] true (by decide) (fun j h1 h2 => by simp)

theorem wpLoop_count_aux (v : List (List Char)) (hunk : WordPiece.unkTok ∉ v) :
    ∀ (n : Nat) (rem : List Char) (s : Bool), rem.length ≤ n →
      List.count WordPiece.unkTok (WordPiece.wpLoop v rem s) ≤ 1 ∧
        (WordPiece.unkTok ∈ WordPiece.wpLoop v rem s →
          (WordPiece.wpLoop v rem s).getLast? = some WordPiece.unkTok) := by
  intro n
  induction n with
  | zero =>
    intro rem s h
    have : rem = [] := List.eq_nil_of_length_eq_zero (by omega)
    subst this
    simp [wpLoop_nil]
  | succ k ih =>
    intro rem s h
    cases rem with
    | nil => simp [wpLoop_nil]
    | cons c rest =>
      cases hf : WordPiece.findLongest v (c :: rest) s with
      | none =>
        rw [wpLoop_cons_none v c rest s hf]
        constructor
        · simp
        · intro _; rfl
      | some tj =>
        rw [wpLoop_cons_some v c rest s tj hf]
        have hmem : tj.1 ∈ v := findFrom_mem v (c :: rest) s (c :: rest).length tj hf
        have htne : tj.1 ≠ WordPiece.unkTok := fun hh => hunk (hh ▸ hmem)
        have hpos : 1 ≤ tj.2 := findFrom_pos v (c :: rest) s (c :: rest).length tj hf
        have hlen : ((c :: rest).drop tj.2).length ≤ k := by
          simp only [List.length_drop, List.length_cons]
          simp only [List.length_cons] at h
          omega
        have IH := ih ((c :: rest).drop tj.2) false hlen
        constructor
        · rw [List.count_cons]
          simp only [beq_iff_eq, if_neg htne, Nat.add_zero]
          exact IH.1
        · intro hmem2
          rcases List.mem_cons.mp hmem2 with h' | h'
          · exact absurd h'.symm htne
          · have hlast := IH.2 h'
            cases hout : WordPiece.wpLoop v ((c :: rest).drop tj.2) false with
            | nil => rw [hout] at h'; cases h'
            | cons a l =>
              rw [hout] at hlast
              rw [List.getLast?_cons_cons]
              exact hlast

/-- Claim C9 (amended): for every word and every subword vocabulary NOT itself containing
the string `'[UNK]'`, the token list returned by `tokenize_wordpiece` contains the marker
`'[UNK]'` at most once, and when it occurs it is the last element — the remainder of the
word after the first failed match is discarded. (The restriction on the vocabulary is
forced: a vocabulary containing `'[UNK]'` can emit the marker as an ordinary match, see the
counterexample.) -/
theorem claim_C9_amended (v : List (List Char)) (rem : List Char) (atStart : Bool)
    (hunk : WordPiece.unkTok ∉ v) :
    List.count WordPiece.unkTok (WordPiece.wpLoop v rem atStart) ≤ 1 ∧
      (WordPiece.unkTok ∈ WordPiece.wpLoop v rem atStart →
        (WordPiece.wpLoop v rem atStart).getLast? = some WordPiece.unkTok) ∧
      WordPiece.tokenize_wordpiece rem v = WordPiece.wpLoop v rem true :=
  ⟨(wpLoop_count_aux v hunk rem.length rem atStart (le_refl _)).1,
    (wpLoop_count_aux v hunk rem.length rem atStart (le_refl _)).2, rfl⟩

/-- Witness for the amended claim C9 with the empty vocabulary and the word `"ab"`: the
marker occurs exactly once, as the last element. -/
theorem claim_C9_witness :
    List.count WordPiece.unkTok (WordPiece.wpLoop [] ['a', 'b'] true) ≤ 1 ∧
      (WordPiece.unkTok ∈ WordPiece.wpLoop [] ['a', 'b'] true →
        (WordPiece.wpLoop [] ['a', 'b'] true).getLast? = some WordPiece.unkTok) ∧
      WordPiece.tokenize_wordpiece ['a', 'b'] [] = WordPiece.wpLoop [] ['a', 'b'] true :=
  claim_C9_amended [] ['a', 'b'] true (by decide)

/-- Counterexample to claim C9 as stated: for the word `"[UNK]x"` and the vocabulary
`{"[UNK]"}`, the tokenizer first emits `'[UNK]'` as an ordinary vocabulary match and then a
second `'[UNK]'` as the fallback marker, so the output contains the marker twice — not "at
most once". -/
theorem claim_C9_counterexample :
    WordPiece.tokenize_wordpiece ['[', 'U', 'N', 'K', ']', 'x'] [['[', 'U', 'N', 'K', ']']]
        = [WordPiece.unkTok, WordPiece.unkTok] ∧
      ¬ List.count WordPiece.unkTok
          (WordPiece.tokenize_wordpiece ['[', 'U', 'N', 'K', ']', 'x']
            [['[', 'U', 'N', 'K', ']']]) ≤ 1 := by
  decide

/-! ### Helper lemmas: lexicographic string order and the word-level vocabulary -/

theorem ltStr_asymm : ∀ (a b : List Char),
    WordTok.ltStr a b = true → WordTok.ltStr b a = false := by
  intro a
  induction a with
  | nil =>
    intro b h
    cases b with
    | nil => simp [WordTok.ltStr] at h
    | cons y ys => simp [WordTok.ltStr]
  | cons x xs ih =>
    intro b h
    cases b with
    | nil => simp [WordTok.ltStr] at h
    | cons y ys =>
      simp only [WordTok.ltStr] at h ⊢
      rcases lt_trichotomy x y with hxy | hxy | hxy
      · rw [if_neg (lt_asymm hxy), if_pos hxy]
      · subst hxy
        rw [if_neg (lt_irrefl x), if_neg (lt_irrefl x)] at h ⊢
        exact ih _ h
      · rw [if_neg (lt_asymm hxy), if_pos hxy] at h
        cases h

theorem ltStr_trans : ∀ (a b c : List Char), WordTok.ltStr a b = true →
    WordTok.ltStr b c = true → WordTok.ltStr a c = true := by
  intro a
  induction a with
  | nil =>
    intro b c hab hbc
    cases c with
    | nil =>
      cases b with
      | nil => simp [WordTok.ltStr] at hab
      | cons y ys => simp [WordTok.ltStr] at hbc
    | cons z zs => simp [WordTok.ltStr]
  | cons x xs ih =>
    intro b c hab hbc
    cases b with
    | nil => simp [WordTok.ltStr] at hab
    | cons y ys =>
      cases c with
      | nil => simp [WordTok.ltStr] at hbc
      | cons z zs =>
        simp only [WordTok.ltStr] at hab hbc ⊢
        rcases lt_trichotomy x y with hxy | hxy | hxy
        · rcases lt_trichotomy y z with hyz | hyz | hyz
          · rw [if_pos (lt_trans hxy hyz)]
          · subst hyz; rw [if_pos hxy]
          · rw [if_neg (lt_asymm hyz), if_pos hyz] at hbc; cases hbc
        · subst hxy
          rcases lt_trichotomy x z with hxz | hxz | hxz
          · rw [if_pos hxz]
          · subst hxz
            rw [if_neg (lt_irrefl x), if_neg (lt_irrefl x)] at hab hbc ⊢
            exact ih _ _ hab hbc
          · rw [if_neg (lt_asymm hxz), if_pos hxz] at hbc; cases hbc
        · rw [if_neg (lt_asymm hxy), if_pos hxy] at hab; cases hab

theorem ltStr_total : ∀ (a b : List Char),
    WordTok.ltStr a b = true ∨ a = b ∨ WordTok.ltStr b a = true := by
  intro a
  induction a with
  | nil =>
    intro b
    cases b with
    | nil => right; left; rfl
    | cons y ys => left; simp [WordTok.ltStr]
  | cons x xs ih =>
    intro b
    cases b with
    | nil => right; right; simp [WordTok.ltStr]
    | cons y ys =>
      rcases lt_trichotomy x y with hxy | hxy | hxy
      · left; simp only [WordTok.ltStr]; rw [if_pos hxy]
      · subst hxy
        rcases ih ys with h | h | h
        · left
          simp only [WordTok.ltStr]
          rw [if_neg (lt_irrefl x), if_neg (lt_irrefl x)]
          exact h
        · right; left; rw [h]
        · right; right
          simp only [WordTok.ltStr]
          rw [if_neg (lt_irrefl x), if_neg (lt_irrefl x)]
          exact h
      · right; right; simp only [WordTok.ltStr]; rw [if_pos hxy]

theorem ltStr_irrefl (a : List Char) : WordTok.ltStr a a = false := by
  rw [Bool.eq_false_iff]
  intro hx
  have h2 := ltStr_asymm a a hx
  rw [h2] at hx
  cases hx

instance : IsTotal (List Char) WordTok.leStr :=
  ⟨fun a b => by
    unfold WordTok.leStr
    rcases ltStr_total a b with h | h | h
    · left; exact ltStr_asymm a b h
    · subst h; left; exact ltStr_irrefl a
    · right; exact ltStr_asymm b a h⟩

instance : IsTrans (List Char) WordTok.leStr :=
  ⟨fun a b c hab hbc => by
    unfold WordTok.leStr at hab hbc ⊢
    rw [Bool.eq_false_iff]
    intro hca
    rcases ltStr_total a b with h | h | h
    · have h2 := ltStr_trans c a b hca h
      rw [hbc] at h2
      cases h2
    · subst h
      rw [hbc] at hca
      cases hca
    · rw [h] at hab
      cases hab⟩

theorem sortedDistinct_facts (toks : List (List Char)) :
    (WordTok.sortedDistinct toks).length = toks.dedup.length ∧
      (∀ w, w ∈ WordTok.sortedDistinct toks ↔ w ∈ toks) ∧
      List.Chain' (fun s t => WordTok.ltStr s t = true) (WordTok.sortedDistinct toks) := by
  have hperm := List.perm_insertionSort WordTok.leStr toks.dedup
  refine ⟨hperm.length_eq, fun w => ?_, ?_⟩
  · unfold WordTok.sortedDistinct
    rw [hperm.mem_iff, List.mem_dedup]
  · have hsorted : List.Sorted WordTok.leStr (WordTok.sortedDistinct toks) :=
      List.sorted_insertionSort WordTok.leStr toks.dedup
    have hnodup : (WordTok.sortedDistinct toks).Nodup :=
      hperm.nodup_iff.mpr (List.nodup_dedup toks)
    have hpair : List.Pairwise (fun s t => WordTok.ltStr s t = true)
        (WordTok.sortedDistinct toks) := by
      refine (List.Pairwise.and hsorted hnodup).imp ?_
      intro a b hab
      rcases ltStr_total a b with h | h | h
      · exact h
      · exact absurd h hab.2
      · exact absurd h (by simpa [WordTok.leStr] using hab.1)
    exact hpair.chain'

/-- Claim C10: in the word-level tokenizer, the vocabulary built from a preprocessed token
list maps the distinct tokens bijectively onto `0, 1, ..., V-1` where `V` is the number of
distinct tokens, assigning IDs in ascending lexicographic order: the IDs in entry order are
exactly `range V`, the keys are exactly the tokens that occur, and consecutive keys are
strictly increasing in the lexicographic order `ltStr` (so the keys are distinct and
sorted ascending). -/
theorem claim_C10_vocab_bijection (text : List Char) :
    (WordTok.vocab (WordTok.preprocess text)).map Prod.snd
        = List.range ((WordTok.preprocess text).dedup.length) ∧
      (∀ w, w ∈ (WordTok.vocab (WordTok.preprocess text)).map Prod.fst ↔
        w ∈ WordTok.preprocess text) ∧
      List.Chain' (fun s t => WordTok.ltStr s t = true)
        ((WordTok.vocab (WordTok.preprocess text)).map Prod.fst) := by
  have hfacts := sortedDistinct_facts (WordTok.preprocess text)
  have hfst : (WordTok.vocab (WordTok.preprocess text)).map Prod.fst
      = WordTok.sortedDistinct (WordTok.preprocess text) := by
    unfold WordTok.vocab
    rw [List.map_map]
    have hcomp : (Prod.fst ∘ fun p : Nat × List Char => (p.2, p.1)) = Prod.snd := rfl
    rw [hcomp, List.enum_map_snd]
  have hsnd : (WordTok.vocab (WordTok.preprocess text)).map Prod.snd
      = List.range (WordTok.sortedDistinct (WordTok.preprocess text)).length := by
    unfold WordTok.vocab
    rw [List.map_map]
    have hcomp : (Prod.snd ∘ fun p : Nat × List Char => (p.2, p.1)) = Prod.fst := rfl
    rw [hcomp, List.enum_map_fst]
  refine ⟨?_, fun w => ?_, ?_⟩
  · rw [hsnd, hfacts.1]
  · rw [hfst]
    exact hfacts.2.1 w
  · rw [hfst]
    exact hfacts.2.2

/-! ### Helper lemmas: merge_vocab as a dict rebuild -/

theorem dictSet_append {α β : Type} [DecidableEq α] (l : List (α × β)) (k : α) (v : β)
    (hk : k ∉ l.map Prod.fst) : dictSet l k v = l ++ [(k, v)] := by
  induction l with
  | nil => rfl
  | cons x rest ih =>
    cases x with
    | mk k' v' =>
      simp only [List.map_cons, List.mem_cons] at hk
      push_neg at hk
      simp only [dictSet]
      rw [if_neg (fun hh => hk.1 hh.symm), ih hk.2]
      rfl

theorem merge_foldl_map (pair : List Char × List Char) :
    ∀ (l acc : List (List Char × Nat)),
      (∀ wf ∈ l, BPE.replaceEntry pair wf.1 ∉ acc.map Prod.fst) →
      List.Pairwise (fun x y : List Char × Nat =>
        BPE.replaceEntry pair x.1 ≠ BPE.replaceEntry pair y.1) l →
      List.foldl (fun acc wf => dictSet acc (BPE.replaceEntry pair wf.1) wf.2) acc l
        = acc ++ l.map (fun wf => (BPE.replaceEntry pair wf.1, wf.2)) := by
  intro l
  induction l with
  | nil => intro acc _ _; simp
  | cons wf rest ih =>
    intro acc hdisj hpw
    rcases List.pairwise_cons.mp hpw with ⟨hhead, htail⟩
    simp only [List.foldl_cons]
    rw [dictSet_append acc _ _ (hdisj wf (by simp))]
    rw [ih (acc ++ [(BPE.replaceEntry pair wf.1, wf.2)]) ?_ htail]
    · simp
    · intro wf' hwf'
      simp only [List.map_append, List.mem_append, List.map_cons, List.map_nil,
        List.mem_singleton]
      rintro (h | h)
      · exact hdisj wf' (by simp [hwf']) h
      · exact hhead wf' hwf' h.symm

/-- Counterexample to claim C6 as stated: for the pair `("a", "b")` and the vocabulary
`{"a b": 1, "ab": 2}` both entries map to the key `"ab"`; the second dict assignment
overwrites the first, and the total of the counts drops from 3 to 2, so `merge_vocab`
does not preserve the occurrence counts. -/
theorem claim_C6_counterexample :
    BPE.merge_vocab (['a'], ['b']) [(['a', ' ', 'b'], 1), (['a', 'b'], 2)]
        = [(['a', 'b'], 2)] ∧
      ((BPE.merge_vocab (['a'], ['b'])
            [(['a', ' ', 'b'], 1), (['a', 'b'], 2)]).map Prod.snd).sum ≠
        (([(['a', ' ', 'b'], 1), (['a', 'b'], 2)] : List (List Char × Nat)).map
            Prod.snd).sum := by
  have h1 : BPE.merge_vocab (['a'], ['b']) [(['a', ' ', 'b'], 1), (['a', 'b'], 2)]
      = [(['a', 'b'], 2)] := by
    simp [BPE.merge_vocab, BPE.replaceEntry, pyReplace, dictSet]
  refine ⟨h1, ?_⟩
  rw [h1]
  decide

/-- Claim C6 (amended): `merge_vocab` preserves the occurrence counts — each resulting
entry carries the count of the entry it came from, and the total is unchanged — provided
the entry transformation is injective on the vocabulary's keys, i.e. no two distinct
entries collapse onto the same merged entry. (The restriction is forced: when two entries
collapse, the dict assignment overwrites one of them, see the counterexample.) -/
theorem claim_C6_amended (pair : List Char × List Char) (vocab : List (List Char × Nat))
    (hnodup : (vocab.map Prod.fst).Nodup)
    (hinj : ∀ w1 ∈ vocab.map Prod.fst, ∀ w2 ∈ vocab.map Prod.fst,
      BPE.replaceEntry pair w1 = BPE.replaceEntry pair w2 → w1 = w2) :
    BPE.merge_vocab pair vocab
        = vocab.map (fun wf => (BPE.replaceEntry pair wf.1, wf.2)) ∧
      ((BPE.merge_vocab pair vocab).map Prod.snd).sum = (vocab.map Prod.snd).sum := by
  have hpw1 : List.Pairwise (fun x y : List Char × Nat => x.1 ≠ y.1) vocab :=
    (List.pairwise_map.mp hnodup)
  have hpw : List.Pairwise (fun x y : List Char × Nat =>
      BPE.replaceEntry pair x.1 ≠ BPE.replaceEntry pair y.1) vocab := by
    refine hpw1.imp_of_mem ?_
    intro x y hx hy hne heq
    exact hne (hinj x.1 (List.mem_map_of_mem Prod.fst hx) y.1
      (List.mem_map_of_mem Prod.fst hy) heq)
  have hmain : BPE.merge_vocab pair vocab
      = vocab.map (fun wf => (BPE.replaceEntry pair wf.1, wf.2)) := by
    have h := merge_foldl_map pair vocab [] (by simp) hpw
    simpa [BPE.merge_vocab] using h
  refine ⟨hmain, ?_⟩
  rw [hmain, List.map_map]
  rfl

/-- Witness for the amended claim C6: the pair `("a", "b")` and the vocabulary
`{"x": 1, "y": 2}`; the entry transformation leaves both keys unchanged, hence is injective
on them, each entry keeps its count, and the total stays 3. -/
theorem claim_C6_witness :
    BPE.merge_vocab (['a'], ['b']) [(['x'], 1), (['y'], 2)]
        = ([(['x'], 1), (['y'], 2)] : List (List Char × Nat)).map
            (fun wf => (BPE.replaceEntry (['a'], ['b']) wf.1, wf.2)) ∧
      ((BPE.merge_vocab (['a'], ['b']) [(['x'], 1), (['y'], 2)]).map Prod.snd).sum
        = (([(['x'], 1), (['y'], 2)] : List (List Char × Nat)).map Prod.snd).sum := by
  refine claim_C6_amended (['a'], ['b']) [(['x'], 1), (['y'], 2)] (by decide) ?_
  intro w1 h1 w2 h2 heq
  fin_cases h1 <;> fin_cases h2 <;>
    first
      | rfl
      | (exfalso
         revert heq
         simp [BPE.replaceEntry, pyReplace])

/-! ### Helper lemmas: string replace on space-joined symbol sequences -/

theorem no_pat_in_spacefree (pat u : List Char) (hsp : ' ' ∈ pat) (hu : ' ' ∉ u) :
    ¬ pat <+: u :=
  fun hp => hu (hp.subset hsp)

theorem pyReplace_fire (pat repl s : List Char) (hpat : pat ≠ []) (hp : pat <+: s) :
    pyReplace pat repl s = repl ++ pyReplace pat repl (s.drop pat.length) := by
  cases s with
  | nil => exact absurd (List.prefix_nil.mp hp) hpat
  | cons c rest =>
    simp only [pyReplace]
    rw [dif_pos ⟨hpat, hp⟩]

theorem pyReplace_skip (pat repl : List Char) :
    ∀ (x rest : List Char), (∀ u, u <:+ x → u ≠ [] → ¬ pat <+: (u ++ rest)) →
      pyReplace pat repl (x ++ rest) = x ++ pyReplace pat repl rest := by
  intro x
  induction x with
  | nil => intro rest _; simp
  | cons c x' ih =>
    intro rest h
    have hnp : ¬ pat <+: (c :: (x' ++ rest)) := by
      have h2 := h (c :: x') (List.suffix_refl _) (by simp)
      simpa using h2
    rw [List.cons_append]
    simp only [pyReplace]
    rw [dif_neg (fun hh => hnp hh.2)]
    rw [ih rest (fun u hu hne => h u (hu.trans (List.suffix_cons c x')) hne)]
    rfl

theorem pyReplace_space (pat repl : List Char) (w : List Char)
    (h : ¬ pat <+: (' ' :: w)) :
    pyReplace pat repl (' ' :: w) = ' ' :: pyReplace pat repl w := by
  simp only [pyReplace]
  rw [dif_neg (fun hh => h hh.2)]

theorem patNotAtSpace (d : Char) (a' b w : List Char) (hd : d ≠ ' ') :
    ¬ ((d :: a') ++ ' ' :: b) <+: (' ' :: w) := by
  intro hp
  rw [List.cons_append, List.cons_prefix_cons] at hp
  exact hd hp.1

theorem prefixOf_sym_space (b w : List Char) :
    ∀ (a x : List Char), ' ' ∉ a → ' ' ∉ x →
      ((a ++ ' ' :: b) <+: (x ++ ' ' :: w) ↔ (x = a ∧ b <+: w)) := by
  intro a
  induction a with
  | nil =>
    intro x ha hx
    cases x with
    | nil => simp [List.cons_prefix_cons]
    | cons c x' =>
      simp only [List.nil_append, List.cons_append, List.cons_prefix_cons]
      constructor
      · rintro ⟨hsp, -⟩
        subst hsp
        exact absurd (List.mem_cons_self _ _) hx
      · rintro ⟨hh, -⟩
        simp at hh
  | cons d a' ih =>
    intro x ha hx
    have hd : d ≠ ' ' := fun hh => ha (by rw [hh]; exact List.mem_cons_self _ _)
    cases x with
    | nil =>
      simp only [List.nil_append, List.cons_append, List.cons_prefix_cons]
      constructor
      · rintro ⟨hds, -⟩
        exact absurd hds hd
      · rintro ⟨hh, -⟩
        simp at hh
    | cons c x' =>
      simp only [List.cons_append, List.cons_prefix_cons]
      have ha2 : ' ' ∉ a' := fun hh => ha (by simp [hh])
      have hx2 : ' ' ∉ x' := fun hh => hx (by simp [hh])
      constructor
      · rintro ⟨hdc, hrest⟩
        rcases (ih x' ha2 hx2).mp hrest with ⟨hxa, hbw⟩
        exact ⟨by rw [hxa, hdc], hbw⟩
      · rintro ⟨hh, hbw⟩
        injection hh with h1 h2
        exact ⟨h1.symm, (ih x' ha2 hx2).mpr ⟨h2, hbw⟩⟩

theorem prefixOf_head_sym (w : List Char) :
    ∀ (b t : List Char), ' ' ∉ b → b <+: (t ++ ' ' :: w) → b <+: t := by
  intro b
  induction b with
  | nil => intro t _ _; exact List.nil_prefix
  | cons c b' ih =>
    intro t hb hp
    cases t with
    | nil =>
      simp only [List.nil_append, List.cons_prefix_cons] at hp
      refine absurd hp.1 (fun hh => hb ?_)
      rw [hh]
      exact List.mem_cons_self _ _
    | cons e t' =>
      simp only [List.cons_append, List.cons_prefix_cons] at hp
      rcases hp with ⟨hce, hrest⟩
      exact (List.cons_prefix_cons).mpr
        ⟨hce, ih t' (fun hh => hb (by simp [hh])) hrest⟩

theorem joinSyms_cons (s : List Char) (M : List (List Char)) (h : M ≠ []) :
    joinSyms (s :: M) = s ++ ' ' :: joinSyms M := by
  cases M with
  | nil => exact absurd rfl h
  | cons t rest => rfl

theorem prefixOf_joinSyms (b t : List Char) (rest : List (List Char)) (hb' : ' ' ∉ b)
    (hp : b <+: joinSyms (t :: rest)) : b <+: t := by
  cases rest with
  | nil => exact hp
  | cons r rest' =>
    exact prefixOf_head_sym (joinSyms (r :: rest')) b t hb' (by simpa [joinSyms] using hp)

theorem mergeSymbols_ne_nil (a b : List Char) (ss : List (List Char)) (h : ss ≠ []) :
    mergeSymbols a b ss ≠ [] := by
  cases ss with
  | nil => exact absurd rfl h
  | cons s rest =>
    cases rest with
    | nil => simp [mergeSymbols]
    | cons t rest' =>
      simp only [mergeSymbols]
      split <;> simp

theorem replace_joinSyms (a b : List Char) (ha : a ≠ []) (ha' : ' ' ∉ a) (hb' : ' ' ∉ b) :
    ∀ (ss : List (List Char)), (∀ s ∈ ss, s ≠ [] ∧ ' ' ∉ s) →
      List.Chain' (fun s t => (a <:+ s ∧ b <+: t) → s = a ∧ t = b) ss →
      pyReplace (a ++ ' ' :: b) (a ++ b) (joinSyms ss) = joinSyms (mergeSymbols a b ss) := by
  have hpat_sp : ' ' ∈ a ++ ' ' :: b := by simp
  have hpat_ne : a ++ ' ' :: b ≠ [] := by simp
  obtain ⟨d, a', hda⟩ : ∃ d a', a = d :: a' := by
    cases a with
    | nil => exact absurd rfl ha
    | cons d a' => exact ⟨d, a', rfl⟩
  have hd : d ≠ ' ' := fun hh => ha' (by rw [hda, hh]; exact List.mem_cons_self _ _)
  intro ss
  induction ss using mergeSymbols.induct a b with
  | case1 =>
    intro _ _
    simp [mergeSymbols, joinSyms, pyReplace]
  | case2 s =>
    intro hs _
    simp only [mergeSymbols, joinSyms]
    have h2 : pyReplace (a ++ ' ' :: b) (a ++ b) (s ++ ([] : List Char))
        = s ++ pyReplace (a ++ ' ' :: b) (a ++ b) [] := by
      apply pyReplace_skip
      intro u hu hne
      rw [List.append_nil]
      exact no_pat_in_spacefree _ u hpat_sp (fun hh => (hs s (by simp)).2 (hu.subset hh))
    simpa [pyReplace] using h2
  | case3 s t rest hst ih =>
    intro hs hchain
    obtain ⟨hsa, htb⟩ := hst
    rw [hsa, htb]
    have hms : mergeSymbols a b (a :: b :: rest) = (a ++ b) :: mergeSymbols a b rest := by
      simp [mergeSymbols]
    rw [hms]
    have hJ : joinSyms (a :: b :: rest) = a ++ ' ' :: joinSyms (b :: rest) := rfl
    rw [hJ]
    cases rest with
    | nil =>
      have hJb : joinSyms [b] = b := rfl
      rw [hJb]
      rw [pyReplace_fire (a ++ ' ' :: b) (a ++ b) (a ++ ' ' :: b) hpat_ne
        (List.prefix_refl _)]
      rw [List.drop_length]
      simp [pyReplace, joinSyms, mergeSymbols]
    | cons r rest' =>
      have hJr : joinSyms (b :: r :: rest') = b ++ ' ' :: joinSyms (r :: rest') := rfl
      rw [hJr]
      have hassoc : a ++ ' ' :: (b ++ ' ' :: joinSyms (r :: rest'))
          = (a ++ ' ' :: b) ++ (' ' :: joinSyms (r :: rest')) := by simp
      rw [hassoc]
      rw [pyReplace_fire (a ++ ' ' :: b) (a ++ b) _ hpat_ne (List.prefix_append _ _)]
      rw [List.drop_left]
      rw [pyReplace_space _ _ _ (by rw [hda]; exact patNotAtSpace d a' b _ hd)]
      rw [ih (fun u hu => hs u (by simp [hu])) hchain.tail.tail]
      rw [joinSyms_cons (a ++ b) _ (mergeSymbols_ne_nil a b _ (by simp))]
  | case4 s t rest hst ih =>
    intro hs hchain
    have hms : mergeSymbols a b (s :: t :: rest) = s :: mergeSymbols a b (t :: rest) := by
      simp only [mergeSymbols]
      rw [if_neg hst]
    rw [hms]
    have hJ : joinSyms (s :: t :: rest) = s ++ ' ' :: joinSyms (t :: rest) := rfl
    rw [hJ]
    have hrel := (List.chain'_cons.mp hchain).1
    have hskip : pyReplace (a ++ ' ' :: b) (a ++ b) (s ++ ' ' :: joinSyms (t :: rest))
        = s ++ pyReplace (a ++ ' ' :: b) (a ++ b) (' ' :: joinSyms (t :: rest)) := by
      apply pyReplace_skip
      intro u hu hne hp
      have hus : ' ' ∉ u := fun hh => (hs s (by simp)).2 (hu.subset hh)
      rcases (prefixOf_sym_space b (joinSyms (t :: rest)) a u ha' hus).mp hp with
        ⟨hua, hbJ⟩
      have hbt : b <+: t := prefixOf_joinSyms b t rest hb' hbJ
      have hsa : a <:+ s := hua ▸ hu
      exact hst (hrel ⟨hsa, hbt⟩)
    rw [hskip]
    rw [pyReplace_space _ _ _ (by rw [hda]; exact patNotAtSpace d a' b _ hd)]
    rw [ih (fun u hu => hs u (by simp [List.mem_cons.mp hu])) hchain.tail]
    rw [joinSyms_cons s _ (mergeSymbols_ne_nil a b _ (by simp))]

/-- Counterexample to claim C2 as stated: for the pair `("a", "b")` and the entry `"xa b"`
(symbols `"xa"` and `"b"`), there is NO adjacent whole-symbol occurrence of `"a"` followed
by `"b"`, so whole-symbol replacement leaves the entry unchanged; but `merge_vocab` replaces
the raw substring `"a b"` inside `"xa b"` and produces `"xab"`, merging across a symbol
boundary. -/
theorem claim_C2_counterexample :
    BPE.merge_vocab (['a'], ['b']) [(['x', 'a', ' ', 'b'], 1)]
        = [(['x', 'a', 'b'], 1)] ∧
      joinSyms (mergeSymbols ['a'] ['b'] (pySplit ['x', 'a', ' ', 'b']))
        = ['x', 'a', ' ', 'b'] ∧
      (['x', 'a', 'b'] : List Char) ≠ ['x', 'a', ' ', 'b'] := by
  refine ⟨?_, by decide, by decide⟩
  simp [BPE.merge_vocab, BPE.replaceEntry, pyReplace, dictSet]

/-- Claim C2 (amended): the entry transformation of `merge_vocab` replaces the raw substring
`a ++ " " ++ b` of the space-joined entry, left to right and non-overlapping. On entries
whose space-joined form is aligned — whenever a symbol ends in `a` and the next symbol
starts with `b`, those symbols are exactly `a` and `b` — this coincides with replacing
exactly the adjacent whole-symbol occurrences of `a` followed by `b` and leaving every
other symbol unchanged (`mergeSymbols`, the claim's whole-symbol replacement). The
alignment hypothesis is forced: without it the replacement can merge across symbol
boundaries, see the counterexample. -/
theorem claim_C2_amended (a b : List Char) (ss : List (List Char)) (ha : a ≠ [])
    (ha' : ' ' ∉ a) (hb' : ' ' ∉ b)
    (hsyms : ∀ s ∈ ss, s ≠ [] ∧ ' ' ∉ s)
    (haligned : List.Chain' (fun s t => (a <:+ s ∧ b <+: t) → s = a ∧ t = b) ss) :
    BPE.replaceEntry (a, b) (joinSyms ss) = joinSyms (mergeSymbols a b ss) :=
  replace_joinSyms a b ha ha' hb' ss hsyms haligned

/-- Witness for the amended claim C2 on the pair `("l", "o")` and the entry `"l o w"`: the
alignment hypothesis holds, and the replacement gives exactly the whole-symbol merge
`"lo w"`. -/
theorem claim_C2_witness :
    BPE.replaceEntry (['l'], ['o']) (joinSyms [['l'], ['o'], ['w']])
        = joinSyms (mergeSymbols ['l'] ['o'] [['l'], ['o'], ['w']]) := by
  refine claim_C2_amended ['l'] ['o'] [['l'], ['o'], ['w']] (by decide) (by decide)
    (by decide) (by decide) ?_
  refine List.chain'_cons.mpr ⟨fun _ => ⟨rfl, rfl⟩,
    List.chain'_cons.mpr ⟨?_, List.chain'_singleton _⟩⟩
  rintro ⟨h1, -⟩
  exact absurd (h1.subset (List.mem_cons_self _ _)) (by decide)
